import Mathlib

/-!
Verification development for the decomk configuration-resolution engine.

The definitions below are shallow embeddings of the Go source:
  - `ExpandTokens`, `expandKey`, `expandBody` embed the macro expansion
    engine (package expand, makeexec.go lines 82-141),
  - `SplitTuple`, `isIdent`, `Partition` embed package resolve,
  - `selectTargets`, `effectiveTupleValues`, `targetsFromActionArgs`,
    `splitTargetList` embed the action/target selector of cmd/decomk/main.go,
  - `Merge` embeds contexts.Merge,
  - `contextKeysForWorkspaces`, `selectContextKey` embed the identity
    selector of cmd/decomk/main.go,
  - `TouchExistingStamps` embeds state.TouchExistingStamps over an explicit
    filesystem-tree model.

Go maps are modelled as functions into `Option`; fallible Go functions
(returning `error`) are modelled with `Except`, the error carrying the same
data the Go error message is formatted from.
-/

/-- `Defs` models the Go `map[string][]string` of macro definitions
(`expand.Defs` / `contexts.Defs`): a finite map is embedded as a function
returning `none` for absent keys (Go's comma-ok lookup). -/
def Defs : Type := String → Option (List String)

/-- Models `expand.Options`.  `MaxDepth` is a Go `int`, hence `Int` here:
`ExpandTokens` substitutes the default 64 when `MaxDepth <= 0`. -/
structure Options where
  MaxDepth : Int
deriving DecidableEq, Repr

/-- The two error sites of `expandKey`, carrying the data the Go code
formats into the message:
  - `fmt.Errorf("max expansion depth exceeded (%d) while expanding %q", maxDepth, key)`
  - `fmt.Errorf("macro cycle detected: %s", strings.Join(chain, " -> "))`. -/
inductive ExpandError where
  | depthExceeded (limit : Nat) (key : String)
  | cycle (chain : List String)
deriving DecidableEq, Repr

mutual

/-- Embeds the inner closure `expandKey` of `expand.ExpandTokens`
(makeexec.go lines 91-126).  The Go code mutates a shared `visiting` set and
`stack` slice, restoring them on the success path and aborting the whole
expansion on the error path; the embedding passes both down as arguments,
which is observationally the same.  `maxDepth` is the already-defaulted
positive bound. -/
def expandKey (defs : Defs) (maxDepth : Nat) (visiting stack : List String)
    (key : String) (depth : Nat) : Except ExpandError (List String) :=
  if h : depth > maxDepth then
    .error (.depthExceeded maxDepth key)
  else if visiting.contains key then
    .error (.cycle (stack ++ [key]))
  else
    match defs key with
    | none =>
        -- Unknown macros are treated as literals by design.
        .ok [key]
    | some body =>
        expandBody defs maxDepth (key :: visiting) (stack ++ [key]) body (depth + 1)
termination_by (maxDepth + 2 - depth, 0)

/-- Embeds the `for _, tok := range body` loop of `expandKey` (and, with
empty `visiting`/`stack` and `childDepth = 1`, the identical top-level loop
of `ExpandTokens`, lines 128-139): each token that is a `defs` key is
expanded at `childDepth` and spliced in, every other token is kept as a
literal, and the first error aborts. -/
def expandBody (defs : Defs) (maxDepth : Nat) (visiting stack : List String)
    (body : List String) (childDepth : Nat) : Except ExpandError (List String) :=
  match body with
  | [] => .ok []
  | tok :: rest =>
      match defs tok with
      | some _ =>
          match expandKey defs maxDepth visiting stack tok childDepth with
          | .error e => .error e
          | .ok expanded =>
              match expandBody defs maxDepth visiting stack rest childDepth with
              | .error e => .error e
              | .ok out => .ok (expanded ++ out)
      | none =>
          match expandBody defs maxDepth visiting stack rest childDepth with
          | .error e => .error e
          | .ok out => .ok (tok :: out)
termination_by (maxDepth + 2 - childDepth, body.length + 1)

end

/-- Embeds `expand.ExpandTokens` (makeexec.go lines 82-141): default the
depth bound to 64 when the option is zero or negative, then run the
top-level per-token loop, which coincides with `expandBody` at depth 1 with
empty `visiting` set and `stack`. -/
def ExpandTokens (defs : Defs) (tokens : List String) (opts : Options) :
    Except ExpandError (List String) :=
  let maxDepth : Nat := if opts.MaxDepth ≤ 0 then 64 else opts.MaxDepth.toNat
  expandBody defs maxDepth [] [] tokens 1

/-- Model of Go `unicode.IsLetter` on the Latin-1 range (code points up to
0xFF), where the Go implementation answers from an explicit per-byte
properties table; the Latin-1 letters are A-Z, a-z, U+00AA, U+00B5, U+00BA,
U+00C0-U+00D6, U+00D8-U+00F6 and U+00F8-U+00FF.  Code points above 0xFF
(answered from Unicode range tables in Go) are outside the scope of this
development and mapped to `false`; every theorem that depends on this
classifier is therefore stated for Latin-1 tokens only. -/
def goIsLetter (c : Char) : Bool :=
  let n := c.toNat
  (65 ≤ n && n ≤ 90) || (97 ≤ n && n ≤ 122) ||
    n == 0xAA || n == 0xB5 || n == 0xBA ||
    (0xC0 ≤ n && n ≤ 0xD6) || (0xD8 ≤ n && n ≤ 0xF6) || (0xF8 ≤ n && n ≤ 0xFF)

/-- Model of Go `unicode.IsDigit` (category Nd) on the Latin-1 range, where
the only such characters are the ASCII digits 0-9; code points above 0xFF
are mapped to `false` as in `goIsLetter`. -/
def goIsDigit (c : Char) : Bool :=
  48 ≤ c.toNat && c.toNat ≤ 57

/-- Embeds `resolve.isIdent` (resolve.go lines 43-59): the first rune must
be an underscore or letter, every later rune an underscore, letter or
digit; the empty string is rejected.  Strings are modelled as their rune
(`Char`) lists. -/
def isIdent (s : List Char) : Bool :=
  match s with
  | [] => false
  | c :: rest =>
      (c == '_' || goIsLetter c) &&
        rest.all (fun r => r == '_' || goIsLetter r || goIsDigit r)

/-- Embeds `resolve.SplitTuple` (resolve.go lines 24-41).  The Go code scans
bytes for the first `'='` and slices around it; in valid UTF-8 the byte
`'='` only ever encodes U+003D, so the rune-level scan below finds the same
position and the byte slices are exactly the rune slices.  `eq <= 0` (no
`'='`, or a leading `'='`) rejects, as does a non-identifier name.
`none` plays Go's `ok = false`. -/
def SplitTuple (token : String) : Option (String × String) :=
  match token.data.findIdx? (· == '=') with
  | none => none
  | some eq =>
      if eq == 0 then none
      else
        let name := token.data.take eq
        let value := token.data.drop (eq + 1)
        if isIdent name then some (String.mk name, String.mk value) else none

/-- Embeds `resolve.Partition` (resolve.go lines 11-20): the Go loop appends
each token to `tuples` when `SplitTuple` accepts it and to `targets`
otherwise; the right fold below builds the same two lists. -/
def Partition (tokens : List String) : List String × List String :=
  match tokens with
  | [] => ([], [])
  | tok :: rest =>
      let (tuples, targets) := Partition rest
      if (SplitTuple tok).isSome then (tok :: tuples, targets)
      else (tuples, tok :: targets)

/-- Model of Go `unicode.IsSpace` on the Latin-1 range: tab, newline,
vertical tab, form feed, carriage return, space, U+0085 and U+00A0.  Code
points above 0xFF are mapped to `false` as in `goIsLetter`. -/
def goIsSpace (c : Char) : Bool :=
  let n := c.toNat
  n == 9 || n == 10 || n == 11 || n == 12 || n == 13 || n == 32 ||
    n == 0x85 || n == 0xA0

/-- Model of Go `strings.Fields`: split around maximal runs of whitespace,
returning the non-empty words. -/
def goFields (s : List Char) : List (List Char) :=
  match s with
  | [] => []
  | c :: rest =>
      if goIsSpace c then goFields rest
      else
        (c :: rest.takeWhile (fun x => !goIsSpace x)) ::
          goFields (rest.dropWhile (fun x => !goIsSpace x))
termination_by s.length
decreasing_by
  · simp
  · have := (List.dropWhile_sublist (l := rest) (fun x => !goIsSpace x)).length_le
    simp
    omega

/-- Embeds `splitTargetList` (main.go lines 1355-1357): `strings.Fields` on
the tuple value. -/
def splitTargetList (value : String) : List String :=
  (goFields value.data).map String.mk

/-- Embeds `effectiveTupleValues` (main.go lines 1323-1333): fold the tuple
list into a last-assignment-wins map, skipping tokens `SplitTuple`
rejects.  The Go `map[string]string` is modelled as a function into
`Option`. -/
def effectiveTupleValues (tuples : List String) : String → Option String :=
  tuples.foldl
    (fun acc t =>
      match SplitTuple t with
      | none => acc
      | some (k, v) => fun x => if x == k then some v else acc x)
    (fun _ => none)

/-- Embeds `targetsFromActionArgs` (main.go lines 1337-1347): an arg naming
a known tuple contributes its whitespace-split value, any other arg
contributes itself literally. -/
def targetsFromActionArgs (actionArgs : List String)
    (tupleValues : String → Option String) : List String :=
  match actionArgs with
  | [] => []
  | arg :: rest =>
      match tupleValues arg with
      | some v => splitTargetList v ++ targetsFromActionArgs rest tupleValues
      | none => arg :: targetsFromActionArgs rest tupleValues

/-- Embeds `selectTargets` (main.go lines 1303-1317): first-match-wins rule
chain over action args, config targets, the INSTALL tuple, and make's
default goal. -/
def selectTargets (configTargets tuples actionArgs : List String) :
    List String × String :=
  let effective := effectiveTupleValues tuples
  if actionArgs.length > 0 then
    (targetsFromActionArgs actionArgs effective, "actionArgs")
  else if configTargets.length > 0 then
    (configTargets, "configTargets")
  else
    match effective "INSTALL" with
    | some installTargets =>
        let split := splitTargetList installTargets
        if split.length > 0 then (split, "defaultINSTALL")
        else ([], "makeDefaultGoal")
    | none => ([], "makeDefaultGoal")

/-- Embeds `contexts.Merge` (contexts.go lines 165-174): overlay keys
replace base keys wholesale.  The Go code inserts base then overlay into a
fresh map (copying each slice); extensionally that is the lookup below. -/
def Merge (base overlay : Defs) : Defs :=
  fun k =>
    match overlay k with
    | some v => some v
    | none => base k

/-- Embeds the `workspaceRepo` struct (main.go lines 682-688), keeping the
three identity fields the context selector consults; `Root` and `OriginURL`
are never read by `contextKeysForWorkspaces` and are omitted. -/
structure workspaceRepo where
  Root : String
  Name : String
  OwnerRepo : String
  RepoName : String
deriving DecidableEq, Repr

/-- Embeds the inner candidate loop of `contextKeysForWorkspaces`
(main.go lines 1216-1224): `chosen` is the first of
`[OwnerRepo, RepoName, Name]` that is non-empty and present in `defs`,
or `""` when none matches. -/
def chosenCandidate (defs : Defs) (repo : workspaceRepo) : String :=
  match [repo.OwnerRepo, repo.RepoName, repo.Name].find?
      (fun c => c != "" && (defs c).isSome) with
  | some c => c
  | none => ""

/-- Embeds the outer loop of `contextKeysForWorkspaces` (main.go lines
1211-1235) with its `seen` set and accumulated `keys`. -/
def contextKeysAux (defs : Defs) :
    List workspaceRepo → List String → List String → List String
  | [], _seen, keys => keys
  | repo :: rest, seen, keys =>
      let chosen := chosenCandidate defs repo
      if chosen == "" || chosen == "DEFAULT" then
        contextKeysAux defs rest seen keys
      else if seen.contains chosen then
        contextKeysAux defs rest seen keys
      else
        contextKeysAux defs rest (chosen :: seen) (keys ++ [chosen])

/-- Embeds `contextKeysForWorkspaces`: at most one non-DEFAULT context key
per discovered workspace, deduplicated, in workspace order. -/
def contextKeysForWorkspaces (defs : Defs) (repos : List workspaceRepo) :
    List String :=
  contextKeysAux defs repos [] []

/-- The three error sites of `selectContextKey` (main.go lines 1173-1202),
carrying the data of the formatted Go messages. -/
inductive ContextError where
  | notFound (key : String)
  | notFoundEnv (key : String)
  | noMatch (candidates : List String)
deriving DecidableEq, Repr

/-- Model of Go `strings.Cut(s, "/")`: split at the first slash, `none`
when there is no slash (Go's `found = false`). -/
def cutSlash (s : String) : Option (String × String) :=
  match s.data.findIdx? (· == '/') with
  | none => none
  | some i => some (String.mk (s.data.take i), String.mk (s.data.drop (i + 1)))

/-- Embeds `selectContextKey` (main.go lines 1173-1202).  The Go function
reads `DECOMK_CONTEXT` and `GITHUB_REPOSITORY` from the environment; both
are passed here as explicit arguments. -/
def selectContextKey (defs : Defs) (flagContext envContext githubRepository : String) :
    Except ContextError String :=
  if flagContext != "" then
    match defs flagContext with
    | none => .error (.notFound flagContext)
    | some _ => .ok flagContext
  else if envContext != "" then
    match defs envContext with
    | none => .error (.notFoundEnv envContext)
    | some _ => .ok envContext
  else
    let candidates :=
      (if githubRepository != "" then
        githubRepository ::
          (match cutSlash githubRepository with
           | some (_, repo) => if repo != "" then [repo] else []
           | none => [])
      else []) ++ ["DEFAULT"]
    match candidates.find? (fun c => (defs c).isSome) with
    | some c => .ok c
    | none => .error (.noMatch candidates)

/-- Embeds the context-selection dispatch of `resolvePlanFromFlags`
(main.go lines 609-630): a non-empty explicit context (flag or
DECOMK_CONTEXT) goes through `selectContextKey` and workspaces are never
consulted; otherwise the discovered workspaces drive
`contextKeysForWorkspaces`.  `repos` stands for the result of the
filesystem-scanning `discoverWorkspaces`. -/
def planContextKeys (defs : Defs) (explicitContext : String)
    (envContext githubRepository : String) (repos : List workspaceRepo) :
    Except ContextError (List String) :=
  if explicitContext != "" then
    match selectContextKey defs explicitContext envContext githubRepository with
    | .error e => .error e
    | .ok key => .ok [key]
  else
    .ok (contextKeysForWorkspaces defs repos)

/-- Embeds the expansion-then-partition step of `resolvePlanFromFlags`
(main.go lines 632-637): seed tokens are macro-expanded and the expanded
token list is partitioned into tuples and targets. -/
def resolveTokens (defs : Defs) (seed : List String) (opts : Options) :
    Except ExpandError (List String × List String) :=
  match ExpandTokens defs seed opts with
  | .error e => .error e
  | .ok expanded => .ok (Partition expanded)

/-- Filesystem-tree model for `state.TouchExistingStamps`: a directory
entry is a regular file (mtime, atime, byte content), a subdirectory with
its own entries, or some other kind of node (symlink, device, ...). -/
inductive FsNode where
  | regular (mtime atime : Int) (content : List Nat)
  | directory (entries : List (String × FsNode))
  | other (mtime atime : Int)
deriving Repr

/-- Model of Go `strings.HasPrefix(name, ".")`: the first rune is '.'
(the one-byte prefix "." corresponds to the one-rune prefix). -/
def startsWithDot (name : String) : Bool :=
  match name.data with
  | c :: _ => c == '.'
  | [] => false

/-- Embeds the loop body of `state.TouchExistingStamps` (state.go lines
257-276) on one directory entry: hidden names (leading '.'), directories
and non-regular files are skipped; a regular file gets
`os.Chtimes(p, now, now)`, which sets both its access and modification
time to `now` and leaves its content alone. -/
def touchEntry (now : Int) (ent : String × FsNode) : String × FsNode :=
  match ent with
  | (name, node) =>
      if startsWithDot name then (name, node)
      else
        match node with
        | .directory es => (name, .directory es)
        | .other m a => (name, .other m a)
        | .regular _m _a content => (name, .regular now now content)

/-- Embeds `state.TouchExistingStamps` (state.go lines 248-278) over the
tree model: a missing stamp directory (`os.IsNotExist` on `ReadDir`) is
success with nothing changed; otherwise every top-level entry passes
through `touchEntry`.  I/O faults (ReadDir, Info or Chtimes failures on an
existing, well-formed directory) are outside this failure-free
filesystem model, so the embedded function is total. -/
def TouchExistingStamps (stampDir : Option (List (String × FsNode))) (now : Int) :
    Option (List (String × FsNode)) :=
  match stampDir with
  | none => none
  | some entries => some (entries.map (touchEntry now))

mutual

/-- Follows the spec's words for macro expansion (claim C1): a token that
is not a `Defs` key expands to itself; a token that is a key expands to
the element-wise expansion of its defining token list. -/
inductive Expands (defs : Defs) : String → List String → Prop where
  | lit (t : String) : defs t = none → Expands defs t [t]
  | mac (t : String) (body out : List String) :
      defs t = some body → ExpandsList defs body out → Expands defs t out

/-- Follows the spec's words for macro expansion of a token list: each
token is expanded in order and the results are concatenated, preserving
order and duplicates. -/
inductive ExpandsList (defs : Defs) : List String → List String → Prop where
  | nil : ExpandsList defs [] []
  | cons (t : String) (ts o os : List String) :
      Expands defs t o → ExpandsList defs ts os →
      ExpandsList defs (t :: ts) (o ++ os)

end

/-- Every successful run of the expansion engine satisfies the spec-side
expansion relation, at any visiting set, stack and depth. -/
theorem expand_ok_spec (defs : Defs) (maxDepth : Nat) :
    (∀ visiting stack key depth out,
        expandKey defs maxDepth visiting stack key depth = .ok out →
        Expands defs key out) ∧
    (∀ visiting stack body childDepth out,
        expandBody defs maxDepth visiting stack body childDepth = .ok out →
        ExpandsList defs body out) := by
  have h := expandKey.mutual_induct defs maxDepth
    (fun vis st key depth => ∀ out,
      expandKey defs maxDepth vis st key depth = .ok out → Expands defs key out)
    (fun vis st body childDepth => ∀ out,
      expandBody defs maxDepth vis st body childDepth = .ok out →
        ExpandsList defs body out)
    ?c1 ?c2 ?c3 ?c4 ?c5 ?c6 ?c7 ?c8 ?c9 ?c10
  case c1 =>
    intro vis st key depth hd out hok
    rw [expandKey] at hok
    simp [hd] at hok
  case c2 =>
    intro vis st key depth hd hvis out hok
    have hv : key ∈ vis := by simpa using hvis
    rw [expandKey] at hok
    simp [hd, hv] at hok
  case c3 =>
    intro vis st key depth hd hvis hnone out hok
    have hv : key ∉ vis := by simpa using hvis
    rw [expandKey] at hok
    simp [hd, hv, hnone] at hok
    subst hok
    exact Expands.lit key hnone
  case c4 =>
    intro vis st key depth hd hvis body hsome ih out hok
    have hv : key ∉ vis := by simpa using hvis
    rw [expandKey] at hok
    simp [hd, hv, hsome] at hok
    exact Expands.mac key body out hsome (ih out hok)
  case c5 =>
    intro vis st c out hok
    rw [expandBody] at hok
    simp at hok
    subst hok
    exact ExpandsList.nil
  case c6 =>
    intro vis st c tok rest val hsome e hkerr ih out hok
    rw [expandBody] at hok
    simp [hsome, hkerr] at hok
  case c7 =>
    intro vis st c tok rest val hsome o1 hk e herr ih1 ih2 out hok
    rw [expandBody] at hok
    simp [hsome, hk, herr] at hok
  case c8 =>
    intro vis st c tok rest val hsome o1 hk o2 hrest ih1 ih2 out hok
    rw [expandBody] at hok
    simp [hsome, hk, hrest] at hok
    subst hok
    exact ExpandsList.cons tok rest o1 o2 (ih1 o1 hk) (ih2 o2 hrest)
  case c9 =>
    intro vis st c tok rest hnone e herr ih out hok
    rw [expandBody] at hok
    simp [hnone, herr] at hok
  case c10 =>
    intro vis st c tok rest hnone o2 hrest ih out hok
    rw [expandBody] at hok
    simp [hnone, hrest] at hok
    subst hok
    exact ExpandsList.cons tok rest [tok] o2 (Expands.lit tok hnone) (ih o2 hrest)
  exact ⟨fun vis st key depth => h.1 vis st key depth,
    fun vis st body c => h.2 vis st body c⟩

/-- Every error the expansion engine produces is one of its two error
sites: a depth error carrying the configured bound, or a cycle error whose
chain is the current stack extended by the re-entered key — hence, as long
as the visiting set stays inside the stack, a chain ending in a name that
already occurs earlier in it. -/
theorem expand_error_spec (defs : Defs) (maxDepth : Nat) :
    (∀ visiting stack key depth e,
        (∀ x, x ∈ visiting → x ∈ stack) →
        expandKey defs maxDepth visiting stack key depth = .error e →
        (∃ k, e = .depthExceeded maxDepth k) ∨
          ∃ pre k, e = .cycle (pre ++ [k]) ∧ k ∈ pre) ∧
    (∀ visiting stack body childDepth e,
        (∀ x, x ∈ visiting → x ∈ stack) →
        expandBody defs maxDepth visiting stack body childDepth = .error e →
        (∃ k, e = .depthExceeded maxDepth k) ∨
          ∃ pre k, e = .cycle (pre ++ [k]) ∧ k ∈ pre) := by
  have h := expandKey.mutual_induct defs maxDepth
    (fun vis st key depth => ∀ e, (∀ x, x ∈ vis → x ∈ st) →
      expandKey defs maxDepth vis st key depth = .error e →
      (∃ k, e = .depthExceeded maxDepth k) ∨
        ∃ pre k, e = .cycle (pre ++ [k]) ∧ k ∈ pre)
    (fun vis st body childDepth => ∀ e, (∀ x, x ∈ vis → x ∈ st) →
      expandBody defs maxDepth vis st body childDepth = .error e →
      (∃ k, e = .depthExceeded maxDepth k) ∨
        ∃ pre k, e = .cycle (pre ++ [k]) ∧ k ∈ pre)
    ?d1 ?d2 ?d3 ?d4 ?d5 ?d6 ?d7 ?d8 ?d9 ?d10
  case d1 =>
    intro vis st key depth hd e hinv herr
    rw [expandKey] at herr
    simp [hd] at herr
    subst herr
    exact .inl ⟨key, rfl⟩
  case d2 =>
    intro vis st key depth hd hvis e hinv herr
    have hv : key ∈ vis := by simpa using hvis
    rw [expandKey] at herr
    simp [hd, hv] at herr
    subst herr
    exact .inr ⟨st, key, rfl, hinv key hv⟩
  case d3 =>
    intro vis st key depth hd hvis hnone e hinv herr
    have hv : key ∉ vis := by simpa using hvis
    rw [expandKey] at herr
    simp [hd, hv, hnone] at herr
  case d4 =>
    intro vis st key depth hd hvis body hsome ih e hinv herr
    have hv : key ∉ vis := by simpa using hvis
    rw [expandKey] at herr
    simp [hd, hv, hsome] at herr
    refine ih e ?_ herr
    intro x hx
    rcases List.mem_cons.mp hx with hx | hx
    · exact List.mem_append.mpr (.inr (by simp [hx]))
    · exact List.mem_append.mpr (.inl (hinv x hx))
  case d5 =>
    intro vis st c e hinv herr
    rw [expandBody] at herr
    simp at herr
  case d6 =>
    intro vis st c tok rest val hsome e0 hkerr ih e hinv herr
    rw [expandBody] at herr
    simp [hsome, hkerr] at herr
    subst herr
    exact ih e0 hinv hkerr
  case d7 =>
    intro vis st c tok rest val hsome o1 hk e0 hresterr ih1 ih2 e hinv herr
    rw [expandBody] at herr
    simp [hsome, hk, hresterr] at herr
    subst herr
    exact ih2 e0 hinv hresterr
  case d8 =>
    intro vis st c tok rest val hsome o1 hk o2 hrest ih1 ih2 e hinv herr
    rw [expandBody] at herr
    simp [hsome, hk, hrest] at herr
  case d9 =>
    intro vis st c tok rest hnone e0 hresterr ih e hinv herr
    rw [expandBody] at herr
    simp [hnone, hresterr] at herr
    subst herr
    exact ih e0 hinv hresterr
  case d10 =>
    intro vis st c tok rest hnone o2 hrest ih e hinv herr
    rw [expandBody] at herr
    simp [hnone, hrest] at herr
  exact ⟨fun vis st key depth => h.1 vis st key depth,
    fun vis st body c => h.2 vis st body c⟩

/-- The token list a successful expansion returns contains no `defs` key:
key tokens are always replaced by (recursively expanded) bodies, and only
unknown tokens pass through. -/
theorem expand_ok_no_keys (defs : Defs) (maxDepth : Nat) :
    (∀ visiting stack key depth out,
        expandKey defs maxDepth visiting stack key depth = .ok out →
        ∀ x ∈ out, defs x = none) ∧
    (∀ visiting stack body childDepth out,
        expandBody defs maxDepth visiting stack body childDepth = .ok out →
        ∀ x ∈ out, defs x = none) := by
  have h := expandKey.mutual_induct defs maxDepth
    (fun vis st key depth => ∀ out,
      expandKey defs maxDepth vis st key depth = .ok out →
      ∀ x ∈ out, defs x = none)
    (fun vis st body childDepth => ∀ out,
      expandBody defs maxDepth vis st body childDepth = .ok out →
      ∀ x ∈ out, defs x = none)
    ?e1 ?e2 ?e3 ?e4 ?e5 ?e6 ?e7 ?e8 ?e9 ?e10
  case e1 =>
    intro vis st key depth hd out hok
    rw [expandKey] at hok
    simp [hd] at hok
  case e2 =>
    intro vis st key depth hd hvis out hok
    have hv : key ∈ vis := by simpa using hvis
    rw [expandKey] at hok
    simp [hd, hv] at hok
  case e3 =>
    intro vis st key depth hd hvis hnone out hok
    have hv : key ∉ vis := by simpa using hvis
    rw [expandKey] at hok
    simp [hd, hv, hnone] at hok
    subst hok
    intro x hx
    rcases List.mem_singleton.mp hx with rfl
    exact hnone
  case e4 =>
    intro vis st key depth hd hvis body hsome ih out hok
    have hv : key ∉ vis := by simpa using hvis
    rw [expandKey] at hok
    simp [hd, hv, hsome] at hok
    exact ih out hok
  case e5 =>
    intro vis st c out hok
    rw [expandBody] at hok
    simp at hok
    subst hok
    intro x hx
    simp at hx
  case e6 =>
    intro vis st c tok rest val hsome e hkerr ih out hok
    rw [expandBody] at hok
    simp [hsome, hkerr] at hok
  case e7 =>
    intro vis st c tok rest val hsome o1 hk e herr ih1 ih2 out hok
    rw [expandBody] at hok
    simp [hsome, hk, herr] at hok
  case e8 =>
    intro vis st c tok rest val hsome o1 hk o2 hrest ih1 ih2 out hok
    rw [expandBody] at hok
    simp [hsome, hk, hrest] at hok
    subst hok
    intro x hx
    rcases List.mem_append.mp hx with hx | hx
    · exact ih1 o1 hk x hx
    · exact ih2 o2 hrest x hx
  case e9 =>
    intro vis st c tok rest hnone e herr ih out hok
    rw [expandBody] at hok
    simp [hnone, herr] at hok
  case e10 =>
    intro vis st c tok rest hnone o2 hrest ih out hok
    rw [expandBody] at hok
    simp [hnone, hrest] at hok
    subst hok
    intro x hx
    rcases List.mem_cons.mp hx with rfl | hx
    · exact hnone
    · exact ih o2 hrest x hx
  exact ⟨fun vis st key depth => h.1 vis st key depth,
    fun vis st body c => h.2 vis st body c⟩

/-- The Defs of TestExpandTokens_Recursive (makeexec.go test):
DEFAULT -> A B, grokker -> DEFAULT C. -/
def testDefs : Defs := fun s =>
  if s = "DEFAULT" then some ["A", "B"]
  else if s = "grokker" then some ["DEFAULT", "C"]
  else none

/-- The canonical two-macro cycle A -> B -> A. -/
def defsAB : Defs := fun s =>
  if s = "A" then some ["B"]
  else if s = "B" then some ["A"]
  else none

/-- Single-character macro names for chain examples: `chainKey i` is the
one-character string with code point 65 + i (so `chainKey 0 = "A"`). -/
def chainKey (i : Nat) : String := String.mk [Char.ofNat (65 + i)]

/-- A straight chain of 65 single-reference macros and no cycle:
`chainKey i -> chainKey (i+1)` for i = 0..64, `chainKey 65` undefined. -/
def straightChainDefs : Defs := fun s =>
  match s.data with
  | [c] =>
      if 65 ≤ c.toNat && c.toNat ≤ 129 then
        some [String.mk [Char.ofNat (c.toNat + 1)]]
      else none
  | _ => none

/-- The straight 65-macro chain of `straightChainDefs` with one extra key
`chainKey 65 -> chainKey 64`, closing a two-macro reference cycle
`chainKey 64 -> chainKey 65 -> chainKey 64` that is reachable from
`chainKey 0` only at recursion depth 65. -/
def chainCycleDefs : Defs := fun s =>
  match s.data with
  | [c] =>
      if 65 ≤ c.toNat && c.toNat ≤ 129 then
        some [String.mk [Char.ofNat (c.toNat + 1)]]
      else if c.toNat == 130 then some [String.mk [Char.ofNat 129]]
      else none
  | _ => none

/-- C1: whenever `ExpandTokens` succeeds, its output is the spec-side
recursive, in-order flattening of the seed tokens: every token that is a
key of Defs is replaced, recursively, by the expansion of that key's token
list, and every other token passes through unchanged as a literal, with
order and duplicates preserved.  (Purity is by construction: the embedded
`ExpandTokens` is a function of exactly (Defs, seed tokens, options).) -/
theorem expandTokens_ok_refines_spec (defs : Defs) (tokens : List String)
    (opts : Options) (out : List String)
    (h : ExpandTokens defs tokens opts = .ok out) :
    ExpandsList defs tokens out := by
  simp only [ExpandTokens] at h
  exact (expand_ok_spec defs _).2 [] [] tokens 1 out h

/-- Witness for C1 at the Defs of the repository's own recursion test:
DEFAULT -> A B, grokker -> DEFAULT C expands [DEFAULT, grokker] to
[A, B, A, B, C]. -/
theorem expandTokens_ok_refines_spec_witness :
    ExpandTokens testDefs ["DEFAULT", "grokker"] ⟨0⟩ =
      .ok ["A", "B", "A", "B", "C"] ∧
    ExpandsList testDefs ["DEFAULT", "grokker"] ["A", "B", "A", "B", "C"] := by
  have h : ExpandTokens testDefs ["DEFAULT", "grokker"] ⟨0⟩ =
      .ok ["A", "B", "A", "B", "C"] := by
    simp [ExpandTokens, expandKey, expandBody, testDefs]
  exact ⟨h, expandTokens_ok_refines_spec testDefs ["DEFAULT", "grokker"] ⟨0⟩
    ["A", "B", "A", "B", "C"] h⟩

/-- C3: expansion is total (the embedded `ExpandTokens` is a Lean function,
so termination is by construction) and depth-guarded: (a) a zero or
negative `MaxDepth` option behaves exactly like the default bound 64;
(b) every failure is either a cycle error or a depth error naming the
offending key together with the configured (post-default) limit; (c) on a
straight chain of 65 nested single-reference macros with bound 5 (no
literal cycle anywhere), expansion fails naming the key at the bound and
the limit 5. -/
theorem expandTokens_depth_rules :
    (∀ (defs : Defs) (toks : List String) (o : Options), o.MaxDepth ≤ 0 →
        ExpandTokens defs toks o = ExpandTokens defs toks ⟨64⟩) ∧
    (∀ (defs : Defs) (toks : List String) (o : Options) (e : ExpandError),
        ExpandTokens defs toks o = .error e →
        (∃ chain, e = .cycle chain) ∨
          ∃ k, e = .depthExceeded
            (if o.MaxDepth ≤ 0 then 64 else o.MaxDepth.toNat) k) ∧
    ExpandTokens straightChainDefs [chainKey 0] ⟨5⟩ =
      .error (.depthExceeded 5 (chainKey 5)) := by
  refine ⟨?defaulting, ?shape, ?chain⟩
  case defaulting =>
    intro defs toks o h
    simp [ExpandTokens, h]
  case shape =>
    intro defs toks o e herr
    simp only [ExpandTokens] at herr
    rcases (expand_error_spec defs _).2 [] [] toks 1 e (by simp) herr with
      ⟨k, hk⟩ | ⟨pre, k, hck, _⟩
    · exact .inr ⟨k, hk⟩
    · exact .inl ⟨pre ++ [k], hck⟩
  case chain =>
    simp [ExpandTokens, expandKey, expandBody, straightChainDefs, chainKey]

/-- Witness for C3: the defaulting rule applied to the chain Defs with a
negative option, and the error-shape rule applied to the depth failure of
the 65-macro chain at bound 5. -/
theorem expandTokens_depth_rules_witness :
    (ExpandTokens straightChainDefs [chainKey 0] ⟨-3⟩ =
      ExpandTokens straightChainDefs [chainKey 0] ⟨64⟩) ∧
    ((∃ chain, ExpandError.depthExceeded 5 (chainKey 5) = .cycle chain) ∨
      ∃ k, ExpandError.depthExceeded 5 (chainKey 5) =
        .depthExceeded (if (5 : Int) ≤ 0 then 64 else (5 : Int).toNat) k) :=
  ⟨expandTokens_depth_rules.1 straightChainDefs [chainKey 0] ⟨-3⟩ (by norm_num),
   expandTokens_depth_rules.2.1 straightChainDefs [chainKey 0] ⟨5⟩ _
     expandTokens_depth_rules.2.2⟩

/-- `Char.ofNat` is left inverse to `Char.toNat` below the surrogate
range. -/
theorem charToNat_ofNat_eq (n : Nat) (h : n < 55296) :
    (Char.ofNat n).toNat = n := by
  unfold Char.ofNat
  rw [dif_pos (Or.inl h)]
  rfl

/-- The chain keys are pairwise distinct on the range used. -/
theorem chainKey_inj (i j : Nat) (hi : i ≤ 65) (hj : j ≤ 65)
    (h : chainKey i = chainKey j) : i = j := by
  have hd : [Char.ofNat (65 + i)] = [Char.ofNat (65 + j)] :=
    congrArg String.data h
  have hc : Char.ofNat (65 + i) = Char.ofNat (65 + j) := by
    injection hd
  have := congrArg Char.toNat hc
  rw [charToNat_ofNat_eq (65 + i) (by omega),
    charToNat_ofNat_eq (65 + j) (by omega)] at this
  omega

/-- Each chain key up to index 64 maps to the next chain key. -/
theorem chainCycleDefs_lookup (i : Nat) (hi : i ≤ 64) :
    chainCycleDefs (chainKey i) = some [chainKey (i + 1)] := by
  have ht : (Char.ofNat (65 + i)).toNat = 65 + i :=
    charToNat_ofNat_eq _ (by omega)
  have harith : 65 + i + 1 = 65 + (i + 1) := by omega
  simp only [chainCycleDefs, chainKey, ht]
  rw [if_pos (by simp; omega)]
  rw [harith]

/-- Expanding chain key i at depth i+1 under bound 64 runs down the chain
and dies with the depth error at chain key 64, for any visiting set that
avoids the keys still ahead. -/
theorem chain_error (k : Nat) : ∀ i, i + k = 64 → ∀ vis st,
    (∀ j, i ≤ j → j ≤ 64 → chainKey j ∉ vis) →
    expandKey chainCycleDefs 64 vis st (chainKey i) (i + 1) =
      .error (.depthExceeded 64 (chainKey 64)) := by
  induction k with
  | zero =>
      intro i hik vis st hvis
      have hi : i = 64 := by omega
      subst hi
      rw [expandKey]
      simp
  | succ k ih =>
      intro i hik vis st hvis
      have hi : i + 1 ≤ 64 := by omega
      have hnv : chainKey i ∉ vis := hvis i (le_refl i) (by omega)
      rw [expandKey]
      rw [dif_neg (by omega)]
      rw [if_neg (by simpa using hnv)]
      rw [chainCycleDefs_lookup i (by omega)]
      change expandBody chainCycleDefs 64 (chainKey i :: vis)
        (st ++ [chainKey i]) [chainKey (i + 1)] (i + 1 + 1) = _
      rw [expandBody.eq_def]
      have hl := chainCycleDefs_lookup (i + 1) (by omega : i + 1 ≤ 64)
      have hrec := ih (i + 1) (by omega) (chainKey i :: vis)
        (st ++ [chainKey i])
        (by
          intro j hj1 hj2
          rw [List.mem_cons]
          rintro (hje | hjv)
          · have := chainKey_inj j i (by omega) (by omega) hje
            omega
          · exact hvis j (by omega) hj2 hjv)
      simp only [hl, hrec]

/-- Counterexample to C2 as stated: `chainCycleDefs` contains the reference
cycle `chainKey 64 -> chainKey 65 -> chainKey 64`, reachable from the seed
`[chainKey 0]` through the straight 64-macro chain, yet `ExpandTokens`
with default options fails with a depth error (the bound 64 is hit before
the cycle is ever re-entered) and not with a cycle error. -/
theorem expand_cycle_claim_counterexample :
    chainCycleDefs (chainKey 64) = some [chainKey 65] ∧
    chainCycleDefs (chainKey 65) = some [chainKey 64] ∧
    ExpandTokens chainCycleDefs [chainKey 0] ⟨0⟩ =
      .error (.depthExceeded 64 (chainKey 64)) ∧
    ¬ ∃ ch, ExpandTokens chainCycleDefs [chainKey 0] ⟨0⟩ =
      .error (.cycle ch) := by
  have hmain : ExpandTokens chainCycleDefs [chainKey 0] ⟨0⟩ =
      .error (.depthExceeded 64 (chainKey 64)) := by
    simp only [ExpandTokens]
    rw [show ((if (0 : Int) ≤ 0 then 64 else (0 : Int).toNat) : Nat) = 64 by
      norm_num]
    rw [expandBody.eq_def]
    have hl := chainCycleDefs_lookup 0 (by omega : 0 ≤ 64)
    have hrec := chain_error 64 0 (by omega) [] [] (by simp)
    rw [show (1 : Nat) = 0 + 1 from rfl]
    simp only [hl, hrec]
  refine ⟨chainCycleDefs_lookup 64 (le_refl 64), by decide, hmain, ?_⟩
  rintro ⟨ch, hch⟩
  rw [hmain] at hch
  simp at hch

/-- C2 (amended): for a reference cycle that expansion re-enters within
the configured depth bound, the failure is a cycle error whose reported
chain is the ordered reference path from the seed to the repeated name —
in general every cycle error's chain ends in a name that already occurs
earlier in the chain, and for the canonical cycle A -> B -> A seeded at A
the chain is exactly [A, B, A], containing both names.  (A cycle whose
re-entry would only happen beyond the depth bound yields a depth error
instead, per the counterexample.) -/
theorem expand_cycle_chain_spec :
    (∀ (defs : Defs) (toks : List String) (o : Options) (ch : List String),
        ExpandTokens defs toks o = .error (.cycle ch) →
        ∃ pre k, ch = pre ++ [k] ∧ k ∈ pre) ∧
    ExpandTokens defsAB ["A"] ⟨0⟩ = .error (.cycle ["A", "B", "A"]) ∧
    "A" ∈ ["A", "B", "A"] ∧ "B" ∈ ["A", "B", "A"] := by
  refine ⟨?gen, ?conc, by simp, by simp⟩
  case gen =>
    intro defs toks o ch herr
    simp only [ExpandTokens] at herr
    rcases (expand_error_spec defs _).2 [] [] toks 1 (.cycle ch) (by simp) herr
      with ⟨k, hk⟩ | ⟨pre, k, hck, hkp⟩
    · cases hk
    · exact ⟨pre, k, by injection hck, hkp⟩
  case conc =>
    simp [ExpandTokens, expandKey, expandBody, defsAB]

/-- Witness for the amended C2: the general chain-shape rule applied to the
concrete cycle error of A -> B -> A. -/
theorem expand_cycle_chain_spec_witness :
    ∃ pre k, (["A", "B", "A"] : List String) = pre ++ [k] ∧ k ∈ pre :=
  expand_cycle_chain_spec.1 defsAB ["A"] ⟨0⟩ ["A", "B", "A"]
    expand_cycle_chain_spec.2.1

/-- `Partition` computes the two `SplitTuple`-filters of its input. -/
theorem partition_eq_filter (l : List String) :
    Partition l =
      (l.filter (fun t => (SplitTuple t).isSome),
       l.filter (fun t => (SplitTuple t).isNone)) := by
  induction l with
  | nil => simp [Partition]
  | cons x xs ih => cases hx : SplitTuple x <;> simp [Partition, ih, hx]

/-- C10: `Partition` is the order-preserving partition of its input by
`SplitTuple` acceptance: the two outputs are exactly the accepting and
rejecting filters of the input (hence relative order and duplicates are
preserved and every token lands in exactly one output), lengths add up to
the input length, and per-token multiplicities add up as well. -/
theorem partition_order_preserving (tokens : List String) :
    Partition tokens =
      (tokens.filter (fun t => (SplitTuple t).isSome),
       tokens.filter (fun t => (SplitTuple t).isNone)) ∧
    (Partition tokens).1.length + (Partition tokens).2.length =
      tokens.length ∧
    ∀ t : String,
      (Partition tokens).1.count t + (Partition tokens).2.count t =
        tokens.count t := by
  have h1 := partition_eq_filter
  have h2 : ∀ l : List String,
      (l.filter (fun t => (SplitTuple t).isSome)).length +
        (l.filter (fun t => (SplitTuple t).isNone)).length = l.length := by
    intro l
    induction l with
    | nil => simp
    | cons x xs ih => cases hx : SplitTuple x <;> simp [hx] <;> omega
  have h3 : ∀ (t : String) (l : List String),
      (l.filter (fun t => (SplitTuple t).isSome)).count t +
        (l.filter (fun t => (SplitTuple t).isNone)).count t = l.count t := by
    intro t l
    induction l with
    | nil => simp
    | cons x xs ih =>
        by_cases hxt : x = t
        · subst hxt
          cases hx : SplitTuple x <;>
            simp_all [List.count_cons, List.count_filter]
        · cases hx : SplitTuple x <;> simp [hx, List.count_cons, hxt] <;> omega
  exact ⟨h1 tokens, by rw [h1 tokens]; exact h2 tokens,
    fun t => by rw [h1 tokens]; exact h3 t tokens⟩

/-- Follows the original claim's words (C7): the token is a tuple exactly
when everything before the first '=' matches the ASCII identifier grammar
[A-Za-z_][A-Za-z0-9_]* (and an '=' exists); the value is the remainder and
is unconstrained. -/
def asciiTupleSpec (token : String) : Bool :=
  match token.data.findIdx? (· == '=') with
  | none => false
  | some eq =>
      match token.data.take eq with
      | [] => false
      | c :: rest =>
          (c == '_' || (65 ≤ c.toNat && c.toNat ≤ 90) ||
            (97 ≤ c.toNat && c.toNat ≤ 122)) &&
          rest.all (fun r => r == '_' || (65 ≤ r.toNat && r.toNat ≤ 90) ||
            (97 ≤ r.toNat && r.toNat ≤ 122) || (48 ≤ r.toNat && r.toNat ≤ 57))

/-- Counterexample to C7 as stated: the Go code classifies with
`unicode.IsLetter`, not the ASCII letter range, so the Latin-1 letter
'é' (U+00E9) is a legal identifier start: "é=x" is accepted as a tuple by
`SplitTuple` although its name does not match the claimed ASCII grammar
[A-Za-z_][A-Za-z0-9_]*. -/
theorem splitTuple_ascii_counterexample :
    SplitTuple "é=x" = some ("é", "x") ∧ asciiTupleSpec "é=x" = false := by
  constructor
  · decide
  · decide

/-- C7 (amended): a token is a tuple iff it decomposes as NAME ++ "=" ++
value where NAME is everything before the first '=' and matches the
identifier grammar with Go's Unicode letter/digit classes (`isIdent`,
exact on Latin-1 in this model) — the first character a letter or
underscore, the rest letters, digits or underscores; value is the
(unconstrained, possibly empty) remainder.  Tokens beginning with '='
or with a non-identifier name are not tuples. -/
theorem splitTuple_shape (token : String) :
    ((SplitTuple token).isSome ↔
      ∃ name value : List Char,
        token.data = name ++ '=' :: value ∧ '=' ∉ name ∧ isIdent name = true) ∧
    ∀ n v : String, SplitTuple token = some (n, v) →
      token.data = n.data ++ '=' :: v.data ∧ '=' ∉ n.data ∧
        isIdent n.data = true := by
  obtain ⟨l⟩ := token
  have hnotin : ∀ eq : Nat, (∀ (j : ℕ), j < eq → ¬(l[j]? = some '=')) →
      eq ≤ l.length → '=' ∉ l.take eq := by
    intro eq hbefore hle hmem
    obtain ⟨j, hj, hval⟩ := List.mem_iff_getElem.mp hmem
    have hjlt : j < eq := by
      simp [List.length_take] at hj
      omega
    have hjl : j < l.length := by omega
    rw [List.getElem_take] at hval
    exact hbefore j hjlt (by rw [List.getElem?_eq_getElem hjl, hval])
  have hforward : ∀ n v : String, SplitTuple (String.mk l) = some (n, v) →
      l = n.data ++ '=' :: v.data ∧ '=' ∉ n.data ∧ isIdent n.data = true := by
    intro n v hs
    rw [SplitTuple] at hs
    rcases hidx : l.findIdx? (· == '=') with _ | eq
    · rw [hidx] at hs; simp at hs
    · rw [hidx] at hs
      simp only [] at hs
      obtain ⟨hlt, hp, hbefore⟩ := List.findIdx?_eq_some_iff_getElem.mp hidx
      by_cases h0 : eq = 0
      · simp [h0] at hs
      · rw [if_neg (by simpa using h0)] at hs
        by_cases hid : isIdent (l.take eq)
        · rw [if_pos hid] at hs
          simp only [Option.some.injEq, Prod.mk.injEq] at hs
          obtain ⟨hn, hv⟩ := hs
          subst hn
          subst hv
          refine ⟨?_, ?_, hid⟩
          · conv_lhs => rw [← List.take_append_drop eq l]
            rw [List.drop_eq_getElem_cons hlt]
            simp at hp
            rw [hp]
          · refine hnotin eq ?_ (by omega) 
            intro j hj hcontra
            have hjl : j < l.length := by omega
            rw [List.getElem?_eq_getElem hjl] at hcontra
            have := hbefore j hj
            simp at this
            exact this (by injection hcontra)
        · rw [if_neg hid] at hs; simp at hs
  constructor
  · constructor
    · intro hs
      rcases ho : SplitTuple (String.mk l) with _ | ⟨n, v⟩
      · rw [ho] at hs; simp at hs
      · obtain ⟨hd, hni, hident⟩ := hforward n v ho
        exact ⟨n.data, v.data, hd, hni, hident⟩
    · rintro ⟨name, value, hdecomp, hni, hident⟩
      have hname_ne : name ≠ [] := by
        intro h; rw [h] at hident; simp [isIdent] at hident
      subst hdecomp
      have hidx : (name ++ '=' :: value).findIdx? (· == '=') =
          some name.length := by
        rw [List.findIdx?_eq_some_iff_getElem]
        refine ⟨by simp, ?_, ?_⟩
        · rw [List.getElem_append_right (Nat.le_refl name.length)]
          simp
        · intro j hj
          rw [List.getElem_append_left hj]
          simp
          intro hcontra
          exact absurd (hcontra ▸ List.getElem_mem _) hni
      rw [SplitTuple]
      simp only [hidx]
      rw [if_neg (by simp [List.length_eq_zero]; exact hname_ne)]
      rw [List.take_left, if_pos hident]
      simp
  · exact hforward

/-- Witness for the amended C7 at the concrete tuple "A=b c". -/
theorem splitTuple_shape_witness :
    ("A=b c").data = ("A").data ++ '=' :: ("b c").data ∧
      '=' ∉ ("A").data ∧ isIdent ("A").data = true :=
  (splitTuple_shape ("A=b c")).2 "A" "b c" (by decide)

/-- C4: `selectTargets` is a pure first-match-wins rule chain:
(1) non-empty action args win, each arg naming a tuple variable (last
assignment wins, witnessed by the `effectiveTupleValues` conjunct)
contributing its whitespace-split value and any other arg itself,
config targets ignored, label "actionArgs"; (2) else non-empty config
targets verbatim, label "configTargets"; (3) else a defined INSTALL tuple
with non-empty split value, label "defaultINSTALL"; (4) else the empty
list, label "makeDefaultGoal"; including the two concrete instances the
claim names. -/
theorem selectTargets_rules :
    (∀ configTargets tuples actionArgs : List String, actionArgs ≠ [] →
        selectTargets configTargets tuples actionArgs =
          (targetsFromActionArgs actionArgs (effectiveTupleValues tuples),
            "actionArgs")) ∧
    (∀ (actionArgs : List String) (tv : String → Option String),
        targetsFromActionArgs actionArgs tv =
          actionArgs.flatMap (fun arg =>
            match tv arg with
            | some v => splitTargetList v
            | none => [arg])) ∧
    (∀ t k v : String, ∀ tuples : List String,
        SplitTuple t = some (k, v) →
        effectiveTupleValues (tuples ++ [t]) k = some v) ∧
    (∀ configTargets tuples : List String, configTargets ≠ [] →
        selectTargets configTargets tuples [] = (configTargets, "configTargets")) ∧
    (∀ (tuples : List String) (v : String),
        effectiveTupleValues tuples "INSTALL" = some v →
        splitTargetList v ≠ [] →
        selectTargets [] tuples [] = (splitTargetList v, "defaultINSTALL")) ∧
    (∀ tuples : List String,
        (effectiveTupleValues tuples "INSTALL" = none ∨
          ∃ v, effectiveTupleValues tuples "INSTALL" = some v ∧
            splitTargetList v = []) →
        selectTargets [] tuples [] = ([], "makeDefaultGoal")) ∧
    selectTargets ["Block00"] ["INSTALL=one two"] ["INSTALL"] =
      (["one", "two"], "actionArgs") ∧
    selectTargets [] [] [] = ([], "makeDefaultGoal") := by
  refine ⟨?r1, ?r2, ?r3, ?r4, ?r5, ?r6, ?ex1, by decide⟩
  case ex1 =>
    simp [selectTargets, targetsFromActionArgs, effectiveTupleValues,
      splitTargetList, goFields, SplitTuple, isIdent, goIsLetter, goIsDigit,
      goIsSpace]
  case r1 =>
    intro c t a ha
    have h : a.length > 0 := by cases a <;> simp_all
    simp [selectTargets, h]
  case r2 =>
    intro a tv
    induction a with
    | nil => simp [targetsFromActionArgs]
    | cons x xs ih =>
        cases hx : tv x <;> simp [targetsFromActionArgs, hx, ih]
  case r3 =>
    intro t k v tuples hsp
    simp [effectiveTupleValues, List.foldl_append, hsp]
  case r4 =>
    intro c t hc
    have h : c.length > 0 := by cases c <;> simp_all
    simp [selectTargets, h]
  case r5 =>
    intro t v hv hne
    have h : (splitTargetList v).length > 0 := by
      cases hs : splitTargetList v <;> simp_all
    simp [selectTargets, hv, h]
  case r6 =>
    intro t hcase
    rcases hcase with h | ⟨v, hv, hnil⟩
    · simp [selectTargets, h]
    · simp [selectTargets, hv, hnil]

/-- Witness for C4: rule 1 fired by a literal action arg and rule 2 fired
by a config target. -/
theorem selectTargets_rules_witness :
    selectTargets [] [] ["lit"] =
      (targetsFromActionArgs ["lit"] (effectiveTupleValues []),
        "actionArgs") ∧
    selectTargets ["Block00"] [] [] = (["Block00"], "configTargets") :=
  ⟨selectTargets_rules.1 [] [] ["lit"] (by decide),
   selectTargets_rules.2.2.2.1 ["Block00"] [] (by decide)⟩

/-- C5: `Merge` gives overlay (higher-precedence) keys wholesale
priority: a key defined in the overlay resolves to the overlay's full
token list whatever the base holds (never a partial merge or
concatenation), and a key absent from the overlay keeps the base's
value. -/
theorem merge_precedence :
    (∀ (base overlay : Defs) (k : String) (v : List String),
        overlay k = some v → Merge base overlay k = some v) ∧
    (∀ (base overlay : Defs) (k : String),
        overlay k = none → Merge base overlay k = base k) := by
  constructor
  · intro base overlay k v h; simp [Merge, h]
  · intro base overlay k h; simp [Merge, h]

/-- Witness for C5: a key defined in both sources takes the overlay's
full list, a key defined only in the base keeps the base's list. -/
theorem merge_precedence_witness :
    Merge (fun k => if k = "A" then some ["x"] else none)
      (fun k => if k = "A" then some ["y", "z"] else none) "A" =
        some ["y", "z"] ∧
    Merge (fun k => if k = "B" then some ["x"] else none)
      (fun _ => none) "B" = some ["x"] :=
  ⟨merge_precedence.1 _ _ "A" ["y", "z"] (by decide),
   (merge_precedence.2 _ (fun _ => none) "B" rfl).trans (by decide)⟩

/-- Counterexample to C6 as stated: `os.Chtimes(p, now, now)` sets the
access time to `now` as well, so a regular non-hidden stamp file with
atime 3 ends up with atime 7 after normalization at now = 7 — an
attribute other than the modification time is modified. -/
theorem touch_atime_counterexample :
    TouchExistingStamps (some [("stamp", FsNode.regular 5 3 [1])]) 7 =
      some [("stamp", FsNode.regular 7 7 [1])] ∧ (3 : Int) ≠ 7 :=
  ⟨rfl, by decide⟩

/-- C6 (amended): `TouchExistingStamps` maps a missing stamp directory to
success with nothing changed, and otherwise rewrites exactly the
top-level regular files whose name does not start with '.' to carry
modification time and access time `now` with content untouched; hidden
entries, subdirectories (with everything nested deeper) and non-regular
entries are left entirely unchanged, and names, order and number of
entries are preserved. -/
theorem touch_frame :
    (∀ now : Int, TouchExistingStamps none now = none) ∧
    (∀ (now : Int) (entries out : List (String × FsNode)),
        TouchExistingStamps (some entries) now = some out →
        List.Forall₂ (fun ent ent' =>
          ent'.1 = ent.1 ∧
          (startsWithDot ent.1 = true → ent' = ent) ∧
          (∀ es, ent.2 = .directory es → ent' = ent) ∧
          (∀ m a, ent.2 = .other m a → ent' = ent) ∧
          (∀ m a c, startsWithDot ent.1 = false → ent.2 = .regular m a c →
            ent'.2 = .regular now now c)) entries out) := by
  constructor
  · intro now; rfl
  · intro now entries out h
    simp only [TouchExistingStamps, Option.some.injEq] at h
    subst h
    induction entries with
    | nil => exact List.Forall₂.nil
    | cons ent rest ih =>
        refine List.Forall₂.cons ?_ ih
        obtain ⟨name, node⟩ := ent
        by_cases hdot : startsWithDot name
        · simp [touchEntry, hdot]
        · cases node <;> simp [touchEntry, hdot]

/-- Witness for the amended C6 on a four-entry stamp directory (hidden
file, subdirectory with nested file, regular stamp, non-regular node). -/
theorem touch_frame_witness :
    List.Forall₂ (fun ent ent' =>
      ent'.1 = ent.1 ∧
      (startsWithDot ent.1 = true → ent' = ent) ∧
      (∀ es, ent.2 = .directory es → ent' = ent) ∧
      (∀ m a, ent.2 = .other m a → ent' = ent) ∧
      (∀ m a c, startsWithDot ent.1 = false → ent.2 = .regular m a c →
        ent'.2 = .regular (42 : Int) 42 c))
      [(".lock", FsNode.regular 1 2 [3]),
       ("sub", FsNode.directory [("x", FsNode.regular 4 5 [6])]),
       ("stamp", FsNode.regular 7 8 [9]),
       ("dev", FsNode.other 1 1)]
      [(".lock", FsNode.regular 1 2 [3]),
       ("sub", FsNode.directory [("x", FsNode.regular 4 5 [6])]),
       ("stamp", FsNode.regular 42 42 [9]),
       ("dev", FsNode.other 1 1)] :=
  touch_frame.2 42 _ _ rfl

/-- A Defs map whose single key "A=1" is also syntactically NAME=value. -/
def tupleShapedDefs : Defs := fun s => if s = "A=1" then some ["lit"] else none

/-- C8: macro expansion takes priority over tuple classification: a
successful expansion's output never contains a Defs key at all, so
Partition (running on the expanded list in `resolveTokens`) can never see
a token that is simultaneously a Defs key and NAME=value-shaped — the key
has been replaced by its token list first.  Concretely, the tuple-shaped
key "A=1" with body [lit] expands away and Partition yields no tuples. -/
theorem macro_priority_over_tuple :
    (∀ (defs : Defs) (toks : List String) (o : Options) (out : List String),
        ExpandTokens defs toks o = .ok out → ∀ x ∈ out, defs x = none) ∧
    (∀ (defs : Defs) (seed : List String) (o : Options)
        (tuples targets : List String),
        resolveTokens defs seed o = .ok (tuples, targets) →
        ∀ x, x ∈ tuples ∨ x ∈ targets → defs x = none) ∧
    (SplitTuple "A=1").isSome = true ∧
    tupleShapedDefs "A=1" = some ["lit"] ∧
    resolveTokens tupleShapedDefs ["A=1"] ⟨0⟩ = .ok ([], ["lit"]) := by
  have hmain : ∀ (defs : Defs) (toks : List String) (o : Options)
      (out : List String),
      ExpandTokens defs toks o = .ok out → ∀ x ∈ out, defs x = none := by
    intro defs toks o out h
    simp only [ExpandTokens] at h
    exact (expand_ok_no_keys defs _).2 [] [] toks 1 out h
  refine ⟨hmain, ?part, by decide, by decide, ?conc⟩
  case part =>
    intro defs seed o tuples targets h x hx
    simp only [resolveTokens] at h
    rcases he : ExpandTokens defs seed o with e | expanded
    · rw [he] at h; simp at h
    · rw [he] at h
      simp only [Except.ok.injEq] at h
      have hpart := partition_eq_filter expanded
      have hboth := h.symm.trans hpart
      have hx' : x ∈ expanded := by
        rcases hx with hx | hx
        · have ht : tuples = expanded.filter (fun t => (SplitTuple t).isSome) :=
            congrArg Prod.fst hboth
          exact List.mem_of_mem_filter (ht ▸ hx)
        · have ht : targets = expanded.filter (fun t => (SplitTuple t).isNone) :=
            congrArg Prod.snd hboth
          exact List.mem_of_mem_filter (ht ▸ hx)
      exact hmain defs seed o expanded he x hx'
  case conc =>
    simp [resolveTokens, ExpandTokens, expandKey, expandBody, Partition,
      tupleShapedDefs, SplitTuple]

/-- Witness for C8: every token reaching Partition in the concrete
pipeline run is not a Defs key. -/
theorem macro_priority_over_tuple_witness :
    tupleShapedDefs "lit" = none :=
  macro_priority_over_tuple.2.1 tupleShapedDefs ["A=1"] ⟨0⟩ [] ["lit"]
    macro_priority_over_tuple.2.2.2.2 "lit" (.inr (by simp))

/-- Loop invariant of `contextKeysAux`: with `seen` and `keys` holding the
same elements and `keys` duplicate-free, the final key list is
duplicate-free and contains exactly the old keys plus every non-empty,
non-DEFAULT chosen candidate of some workspace in the remaining list. -/
theorem contextKeysAux_spec (defs : Defs) :
    ∀ (repos : List workspaceRepo) (seen keys : List String),
      (∀ x, x ∈ seen ↔ x ∈ keys) → keys.Nodup →
      (contextKeysAux defs repos seen keys).Nodup ∧
      (∀ k, k ∈ contextKeysAux defs repos seen keys ↔
        (k ∈ keys ∨ (k ≠ "" ∧ k ≠ "DEFAULT" ∧
          ∃ r ∈ repos, chosenCandidate defs r = k))) := by
  intro repos
  induction repos with
  | nil =>
      intro seen keys hinv hnd
      exact ⟨hnd, fun k => by simp [contextKeysAux]⟩
  | cons repo rest ih =>
      intro seen keys hinv hnd
      by_cases h1 : chosenCandidate defs repo = "" ∨ chosenCandidate defs repo = "DEFAULT"
      · have hite : contextKeysAux defs (repo :: rest) seen keys =
            contextKeysAux defs rest seen keys := by
          rcases h1 with h1 | h1 <;> simp [contextKeysAux, h1]
        rw [hite]
        obtain ⟨hnd', hmem⟩ := ih seen keys hinv hnd
        refine ⟨hnd', fun k => ?_⟩
        rw [hmem k]
        constructor
        · rintro (hk | ⟨hne, hnd2, r, hr, hc⟩)
          · exact .inl hk
          · exact .inr ⟨hne, hnd2, r, List.mem_cons_of_mem _ hr, hc⟩
        · rintro (hk | ⟨hne, hnd2, r, hr, hc⟩)
          · exact .inl hk
          · rcases List.mem_cons.mp hr with rfl | hr
            · rcases h1 with h1 | h1 <;> rw [h1] at hc <;> simp_all
            · exact .inr ⟨hne, hnd2, r, hr, hc⟩
      · push_neg at h1
        obtain ⟨hne, hnd2⟩ := h1
        by_cases h2 : chosenCandidate defs repo ∈ seen
        · have hite : contextKeysAux defs (repo :: rest) seen keys =
              contextKeysAux defs rest seen keys := by
            simp [contextKeysAux, hne, hnd2, h2]
          rw [hite]
          obtain ⟨hnd', hmem⟩ := ih seen keys hinv hnd
          refine ⟨hnd', fun k => ?_⟩
          rw [hmem k]
          constructor
          · rintro (hk | ⟨hke, hkd, r, hr, hc⟩)
            · exact .inl hk
            · exact .inr ⟨hke, hkd, r, List.mem_cons_of_mem _ hr, hc⟩
          · rintro (hk | ⟨hke, hkd, r, hr, hc⟩)
            · exact .inl hk
            · rcases List.mem_cons.mp hr with rfl | hr
              · exact .inl ((hinv k).mp (hc ▸ h2))
              · exact .inr ⟨hke, hkd, r, hr, hc⟩
        · have hite : contextKeysAux defs (repo :: rest) seen keys =
              contextKeysAux defs rest (chosenCandidate defs repo :: seen)
                (keys ++ [chosenCandidate defs repo]) := by
            simp [contextKeysAux, hne, hnd2, h2]
          rw [hite]
          have hchnotkeys : chosenCandidate defs repo ∉ keys :=
            fun hk => h2 ((hinv _).mpr hk)
          obtain ⟨hnd', hmem⟩ := ih (chosenCandidate defs repo :: seen)
            (keys ++ [chosenCandidate defs repo])
            (by
              intro x
              rw [List.mem_cons, List.mem_append, List.mem_singleton, hinv x]
              tauto)
            (by simp [List.nodup_append, hnd, hchnotkeys])
          refine ⟨hnd', fun k => ?_⟩
          rw [hmem k]
          constructor
          · rintro (hk | ⟨hke, hkd, r, hr, hc⟩)
            · rcases List.mem_append.mp hk with hk | hk
              · exact .inl hk
              · rcases List.mem_singleton.mp hk with rfl
                exact .inr ⟨hne, hnd2, repo, List.mem_cons_self _ _, rfl⟩
            · exact .inr ⟨hke, hkd, r, List.mem_cons_of_mem _ hr, hc⟩
          · rintro (hk | ⟨hke, hkd, r, hr, hc⟩)
            · exact .inl (List.mem_append.mpr (.inl hk))
            · rcases List.mem_cons.mp hr with rfl | hr
              · exact .inl (List.mem_append.mpr (.inr (by simp [hc])))
              · exact .inr ⟨hke, hkd, r, hr, hc⟩

/-- A Defs map defining only the sentinel key DEFAULT. -/
def defsDefaultOnly : Defs := fun s => if s = "DEFAULT" then some ["A"] else none

/-- A workspace directory named DEFAULT with no git identity. -/
def wsDefault : workspaceRepo :=
  { Root := "/workspaces/DEFAULT", Name := "DEFAULT",
    OwnerRepo := "", RepoName := "" }

/-- Counterexample to C9 as stated: for a workspace whose first matching
candidate is the sentinel key DEFAULT, the code contributes no context
key at all (main.go line 1225 skips `chosen == "DEFAULT"`), although the
claim says the first candidate existing in Defs is chosen. -/
theorem contextKeys_default_counterexample :
    chosenCandidate defsDefaultOnly wsDefault = "DEFAULT" ∧
    defsDefaultOnly "DEFAULT" = some ["A"] ∧
    contextKeysForWorkspaces defsDefaultOnly [wsDefault] = [] :=
  ⟨by decide, by decide, by decide⟩

/-- C9 (amended): per workspace the candidates OwnerRepo, RepoName, Name
are tried most-to-least specific and the first non-empty candidate
present in Defs is chosen; the selected keys are exactly the non-empty,
non-DEFAULT chosen candidates (the sentinel DEFAULT is never contributed
by a workspace — it is seeded separately), deduplicated across
workspaces; a workspace with no matching candidate contributes nothing
and causes no error; an explicit context override ignores the discovered
workspaces entirely, fails with a not-found error exactly when the forced
key is absent from Defs, and yields exactly that key otherwise. -/
theorem contextKeys_selection :
    (∀ (defs : Defs) (r : workspaceRepo), r.OwnerRepo ≠ "" →
        (defs r.OwnerRepo).isSome → chosenCandidate defs r = r.OwnerRepo) ∧
    (∀ (defs : Defs) (r : workspaceRepo),
        (r.OwnerRepo = "" ∨ defs r.OwnerRepo = none) → r.RepoName ≠ "" →
        (defs r.RepoName).isSome → chosenCandidate defs r = r.RepoName) ∧
    (∀ (defs : Defs) (repos : List workspaceRepo),
        (contextKeysForWorkspaces defs repos).Nodup) ∧
    (∀ (defs : Defs) (repos : List workspaceRepo) (k : String),
        k ∈ contextKeysForWorkspaces defs repos ↔
          (k ≠ "" ∧ k ≠ "DEFAULT" ∧ ∃ r ∈ repos, chosenCandidate defs r = k)) ∧
    (∀ (defs : Defs) (ec env gh : String) (repos1 repos2 : List workspaceRepo),
        ec ≠ "" →
        planContextKeys defs ec env gh repos1 =
          planContextKeys defs ec env gh repos2) ∧
    (∀ (defs : Defs) (ec env gh : String) (repos : List workspaceRepo),
        ec ≠ "" → defs ec = none →
        planContextKeys defs ec env gh repos = .error (.notFound ec)) ∧
    (∀ (defs : Defs) (ec env gh : String) (repos : List workspaceRepo)
        (v : List String), ec ≠ "" → defs ec = some v →
        planContextKeys defs ec env gh repos = .ok [ec]) := by
  refine ⟨?cand1, ?cand2, ?nodup, ?mem, ?bypass, ?fail, ?okk⟩
  case cand1 =>
    intro defs r hne hsome
    have hb : (r.OwnerRepo != "") = true := by simpa using hne
    simp [chosenCandidate, List.find?, hb, hsome]
  case cand2 =>
    intro defs r h1 hne hsome
    have hb : (r.RepoName != "") = true := by simpa using hne
    rcases h1 with h1 | h1
    · simp [chosenCandidate, List.find?, h1, hb, hsome]
    · simp [chosenCandidate, List.find?, h1, hb, hsome]
  case nodup =>
    intro defs repos
    exact (contextKeysAux_spec defs repos [] [] (by simp) (by simp)).1
  case mem =>
    intro defs repos k
    rw [contextKeysForWorkspaces,
      (contextKeysAux_spec defs repos [] [] (by simp) (by simp)).2 k]
    simp
  case bypass =>
    intro defs ec env gh r1 r2 hec
    simp [planContextKeys, hec]
  case fail =>
    intro defs ec env gh repos hec hnone
    simp [planContextKeys, selectContextKey, hec, hnone]
  case okk =>
    intro defs ec env gh repos v hec hsome
    simp [planContextKeys, selectContextKey, hec, hsome]

/-- Witness for the amended C9: the override accepts a defined key
(ignoring workspaces) and rejects an undefined one. -/
theorem contextKeys_selection_witness :
    planContextKeys defsDefaultOnly "DEFAULT" "" "" [wsDefault] =
      .ok ["DEFAULT"] ∧
    planContextKeys defsDefaultOnly "nope" "" "" [wsDefault] =
      .error (.notFound "nope") :=
  ⟨contextKeys_selection.2.2.2.2.2.2 defsDefaultOnly "DEFAULT" "" ""
      [wsDefault] ["A"] (by decide) (by decide),
   contextKeys_selection.2.2.2.2.2.1 defsDefaultOnly "nope" "" ""
      [wsDefault] (by decide) (by decide)⟩
